import Mathlib

/-!
Verification development for the SW-RAG document-chunking engine.

Texts are modelled as `List Char` (Python `str`).  Separators are literal
strings: the splitters pass `re.escape(separator)` to the regex engine
whenever `is_separator_regex` is false, so every pattern that reaches
`re.split` / `re.search` in the modelled configurations matches exactly the
literal separator text.  Stateful loops become structural or well-founded
recursion; Python's `range` / slicing are modelled by `pyRange` / `pySlice`.
-/

/-- Leftmost occurrence search: `findSplit sep text = some (pre, post)` when
`text = pre ++ sep ++ post` and `pre` is the shortest such prefix; `none`
when `sep` does not occur in `text`.  (For `sep = []` it matches at the
first position of a nonempty `text`.) -/
def findSplit (sep : List Char) : List Char → Option (List Char × List Char)
  | [] => none
  | c :: rest =>
    if sep.isPrefixOf (c :: rest) then some ([], (c :: rest).drop sep.length)
    else
      match findSplit sep rest with
      | none => none
      | some (pre, post) => some (c :: pre, post)

theorem findSplit_eq_some {sep : List Char} :
    ∀ {text pre post : List Char}, findSplit sep text = some (pre, post) →
      text = pre ++ sep ++ post ∧ (sep ≠ [] → post.length < text.length) := by
  intro text
  induction text with
  | nil => intro pre post h; simp [findSplit] at h
  | cons c rest ih =>
    intro pre post h
    rw [findSplit] at h
    by_cases hp : sep.isPrefixOf (c :: rest)
    · rw [if_pos hp] at h
      obtain ⟨t, ht⟩ := List.isPrefixOf_iff_prefix.mp hp
      simp only [Option.some.injEq, Prod.mk.injEq] at h
      obtain ⟨hpre, hpost⟩ := h
      subst hpre
      constructor
      · simp only [List.nil_append]
        rw [← hpost, ← ht, List.drop_left]
      · intro hne
        rw [← hpost, ← ht, List.drop_left, List.length_append]
        have : 0 < sep.length := List.length_pos.mpr hne
        omega
    · rw [if_neg hp] at h
      cases hfs : findSplit sep rest with
      | none => rw [hfs] at h; exact absurd h (by simp)
      | some pp =>
        obtain ⟨pre', post'⟩ := pp
        rw [hfs] at h
        simp only [Option.some.injEq, Prod.mk.injEq] at h
        obtain ⟨hpre, hpost⟩ := h
        subst hpre hpost
        obtain ⟨heq, hlt⟩ := ih hfs
        constructor
        · simp [heq]
        · intro hne
          have := hlt hne
          simp only [List.length_cons]
          omega

/-- Truthiness of `re.search(re.escape(sep), text)`: the empty pattern always
matches; a nonempty literal matches iff it occurs in `text`. -/
def reSearch (sep text : List Char) : Bool :=
  if sep = [] then true else (findSplit sep text).isSome

/-- Fuel-driven worker for splitting on a nonempty literal separator
(the fuel starts at `text.length`, which always suffices since each found
occurrence strictly shortens the remaining text). -/
def splitOnGo (sep : List Char) : Nat → List Char → List (List Char)
  | 0, text => [text]
  | fuel + 1, text =>
    match findSplit sep text with
    | none => [text]
    | some (pre, post) => pre :: splitOnGo sep fuel post

/-- Model of `re.split(pattern, text)` for a nonempty literal pattern: the parts of
`text` between consecutive non-overlapping leftmost occurrences of `sep`.
(`sep = []` is routed elsewhere by every caller; the value here is `[text]`.) -/
def splitOnL (sep text : List Char) : List (List Char) :=
  if sep = [] then [text] else splitOnGo sep text.length text

theorem splitOnGo_ne_nil (sep : List Char) : ∀ fuel text, splitOnGo sep fuel text ≠ [] := by
  intro fuel
  cases fuel with
  | zero => intro text; simp [splitOnGo]
  | succ n =>
    intro text
    rw [splitOnGo]
    cases h : findSplit sep text with
    | none => simp
    | some pp => obtain ⟨pre, post⟩ := pp; simp

theorem splitOnL_ne_nil (sep text : List Char) : splitOnL sep text ≠ [] := by
  rw [splitOnL]
  by_cases hs : sep = []
  · simp [hs]
  · rw [if_neg hs]; exact splitOnGo_ne_nil sep text.length text

theorem intercalate_cons_of_ne_nil (sep p : List Char) (l : List (List Char)) (h : l ≠ []) :
    List.intercalate sep (p :: l) = p ++ sep ++ List.intercalate sep l := by
  obtain ⟨q, t, rfl⟩ : ∃ q t, l = q :: t := by
    cases l with
    | nil => exact absurd rfl h
    | cons q t => exact ⟨q, t, rfl⟩
  simp [List.intercalate, List.intersperse, List.append_assoc]

theorem splitOnGo_intercalate (sep : List Char) (hs : sep ≠ []) :
    ∀ fuel text, text.length ≤ fuel →
      List.intercalate sep (splitOnGo sep fuel text) = text := by
  intro fuel
  induction fuel with
  | zero =>
    intro text hlen
    have : text = [] := List.eq_nil_of_length_eq_zero (Nat.le_zero.mp hlen)
    subst this
    simp [splitOnGo, List.intercalate, List.intersperse]
  | succ n ih =>
    intro text hlen
    rw [splitOnGo]
    cases h : findSplit sep text with
    | none => simp [List.intercalate, List.intersperse]
    | some pp =>
      obtain ⟨pre, post⟩ := pp
      obtain ⟨heq, hlt⟩ := findSplit_eq_some h
      have hpost : post.length ≤ n := by have := hlt hs; omega
      rw [intercalate_cons_of_ne_nil sep pre _ (splitOnGo_ne_nil sep n post)]
      rw [ih post hpost, ← heq]

/-- Losslessness of the bare split: re-inserting the separator between the
parts reproduces the input. -/
theorem splitOnL_intercalate (sep text : List Char) (hs : sep ≠ []) :
    List.intercalate sep (splitOnL sep text) = text := by
  rw [splitOnL, if_neg hs]
  exact splitOnGo_intercalate sep hs text.length text le_rfl

/-- Python parts of `re.split(pattern, text)` for a literal separator.
For the empty pattern Python (3.7+) splits at every position, yielding an
empty part at both ends and one-character parts between; for nonempty `sep`
it yields the parts between occurrences. -/
def reSplitParts (sep text : List Char) : List (List Char) :=
  if sep = [] then [] :: (text.map (fun c => [c]) ++ [[]])
  else splitOnL sep text

/-- Model of `re.split(f"({sep})", text)` for a literal separator: the parts
interleaved with the (single-group) matched separator text. -/
def reSplitCapture (sep text : List Char) : List (List Char) :=
  List.intersperse sep (reSplitParts sep text)

/-- The index pairing `[_splits[i] + _splits[i+1] for i in range(1, len(_splits), 2)]`:
concatenate consecutive pairs of the list. -/
def pairSums : List (List Char) → List (List Char)
  | a :: b :: rest => (a ++ b) :: pairSums rest
  | _ => []

/-- The `keep_separator` branch of `_split_text_with_regex`: split with a
capturing group, glue each matched separator onto the part that follows it,
and put the leading part back in front.  (The even-length repair branch of
the source is transcribed although a single-group split always has odd
length.) -/
def splitKeepM (sep text : List Char) : List (List Char) :=
  let s := reSplitCapture sep text
  let splits := pairSums s.tail
  let splits := if s.length % 2 == 0 then splits ++ s.drop (s.length - 1) else splits
  s.headD [] :: splits

/-- Module-level `_split_text_with_regex(text, separator, keep_separator)`
(identical in FixedSizeFixedStepSplitter.py of both packages and in
DynamicSizeFixedStepSplitter.py), for literal separators: empty separator
degrades to one fragment per character, otherwise split (keeping the
separator on the following fragment when requested); empty fragments are
removed. -/
def splitTextWithRegex (text sep : List Char) (keepSeparator : Bool) : List (List Char) :=
  let splits :=
    if sep ≠ [] then
      if keepSeparator then splitKeepM sep text else splitOnL sep text
    else text.map (fun c => [c])
  splits.filter (fun s => decide (s ≠ []))

theorem headD_intersperse (sep p : List Char) (ps : List (List Char)) :
    (List.intersperse sep (p :: ps)).headD [] = p := by
  cases ps <;> rfl

theorem length_intersperse_cons (sep : List Char) :
    ∀ (ps : List (List Char)) (p : List Char),
      (List.intersperse sep (p :: ps)).length = 2 * ps.length + 1 := by
  intro ps
  induction ps with
  | nil => intro p; rfl
  | cons q rest ih =>
    intro p
    show (p :: sep :: List.intersperse sep (q :: rest)).length = _
    simp only [List.length_cons, ih q, List.length_cons]
    omega

theorem pairSums_intersperse (sep : List Char) :
    ∀ (ps : List (List Char)) (p : List Char),
      pairSums (List.intersperse sep (p :: ps)).tail = ps.map (fun q => sep ++ q) := by
  intro ps
  induction ps with
  | nil => intro p; rfl
  | cons q rest ih =>
    intro p
    show pairSums (p :: sep :: List.intersperse sep (q :: rest)).tail = _
    cases rest with
    | nil => rfl
    | cons r rest2 =>
      show pairSums (sep :: q :: sep :: List.intersperse sep (r :: rest2)) = _
      have := ih q
      simp only [List.intersperse] at this
      simp only [pairSums, List.tail_cons] at this ⊢
      rw [this]
      rfl

theorem splitKeepM_eq (sep text : List Char) (hs : sep ≠ []) :
    splitKeepM sep text =
      (splitOnL sep text).headD [] :: (splitOnL sep text).tail.map (fun q => sep ++ q) := by
  obtain ⟨p, ps, hsplit⟩ : ∃ p ps, splitOnL sep text = p :: ps := by
    cases h : splitOnL sep text with
    | nil => exact absurd h (splitOnL_ne_nil sep text)
    | cons p ps => exact ⟨p, ps, rfl⟩
  simp only [splitKeepM, reSplitCapture, reSplitParts, if_neg hs, hsplit]
  have hlen := length_intersperse_cons sep ps p
  have hmod : (List.intersperse sep (p :: ps)).length % 2 = 1 := by omega
  rw [hmod, headD_intersperse, pairSums_intersperse]
  simp

theorem flatten_filter_ne_nil :
    ∀ l : List (List Char), (l.filter (fun s => decide (s ≠ []))).flatten = l.flatten := by
  intro l
  induction l with
  | nil => rfl
  | cons a l ih =>
    simp only [ne_eq, decide_not] at ih ⊢
    by_cases ha : a = []
    · subst ha; simp [List.filter_cons, ih]
    · simp [List.filter_cons, ha, ih]

theorem flatten_map_singleton : ∀ l : List Char, (l.map (fun c => [c])).flatten = l := by
  intro l
  induction l with
  | nil => rfl
  | cons c l ih => simp [ih]

theorem intercalate_eq_head_flatten (sep : List Char) :
    ∀ (ps : List (List Char)) (p : List Char),
      List.intercalate sep (p :: ps) = p ++ (ps.map (fun q => sep ++ q)).flatten := by
  intro ps
  induction ps with
  | nil => intro p; simp [List.intercalate, List.intersperse]
  | cons q rest ih =>
    intro p
    rw [intercalate_cons_of_ne_nil sep p _ (by simp)]
    rw [ih q]
    simp [List.append_assoc]

/-- C1: for every input text and every (literal) separator pattern, with
`keep_separator = true`, concatenating in order all fragments returned by
`_split_text_with_regex` reproduces the input text exactly. -/
theorem c1_regex_splitter_lossless (text sep : List Char) :
    (splitTextWithRegex text sep true).flatten = text := by
  by_cases hs : sep = []
  · subst hs
    simp only [splitTextWithRegex, ne_eq, not_true_eq_false, if_false]
    rw [flatten_filter_ne_nil, flatten_map_singleton]
  · simp only [splitTextWithRegex, ne_eq, hs, not_false_eq_true, if_true]
    rw [flatten_filter_ne_nil, splitKeepM_eq sep text hs]
    obtain ⟨p, ps, hsplit⟩ : ∃ p ps, splitOnL sep text = p :: ps := by
      cases h : splitOnL sep text with
      | nil => exact absurd h (splitOnL_ne_nil sep text)
      | cons p ps => exact ⟨p, ps, rfl⟩
    rw [hsplit, List.headD_cons, List.tail_cons]
    have hloss := splitOnL_intercalate sep text hs
    rw [hsplit, intercalate_eq_head_flatten sep ps p] at hloss
    simpa using hloss

theorem filter_map_cons_append (c0 : Char) (s : List Char) (ps : List (List Char)) :
    (ps.map (fun q => (c0 :: s) ++ q)).filter (fun x => decide (x ≠ [])) =
      ps.map (fun q => (c0 :: s) ++ q) := by
  apply List.filter_eq_self.mpr
  intro x hx
  obtain ⟨q, _, rfl⟩ := List.mem_map.mp hx
  simp

/-- C6: with `keep_separator = true` and a nonempty (literal) separator,
every fragment returned by `_split_text_with_regex` except the first equals
the separator text concatenated with one of the following split parts: the
separator is prepended to the next fragment, never appended to the
preceding one. -/
theorem c6_separator_prepended (c0 : Char) (s text : List Char) :
    ((splitTextWithRegex text (c0 :: s) true).drop 1).all
      (fun frag => (splitOnL (c0 :: s) text).any (fun q => frag == (c0 :: s) ++ q)) = true := by
  have hs : (c0 :: s) ≠ [] := by simp
  obtain ⟨p, ps, hsplit⟩ : ∃ p ps, splitOnL (c0 :: s) text = p :: ps := by
    cases h : splitOnL (c0 :: s) text with
    | nil => exact absurd h (splitOnL_ne_nil (c0 :: s) text)
    | cons p ps => exact ⟨p, ps, rfl⟩
  have hform : splitTextWithRegex text (c0 :: s) true =
      (p :: ps.map (fun q => (c0 :: s) ++ q)).filter (fun x => decide (x ≠ [])) := by
    simp only [splitTextWithRegex, ne_eq, hs, not_false_eq_true, if_true,
      splitKeepM_eq (c0 :: s) text hs, hsplit, List.headD_cons, List.tail_cons]
  have hmem : ∀ frag ∈ (splitTextWithRegex text (c0 :: s) true).drop 1,
      frag ∈ ps.map (fun q => (c0 :: s) ++ q) := by
    intro frag hf
    rw [hform, List.filter_cons] at hf
    by_cases hp : p = []
    · subst hp
      rw [if_neg (by simp), filter_map_cons_append] at hf
      exact List.drop_subset 1 _ hf
    · rw [if_pos (by simp [hp]), filter_map_cons_append] at hf
      simpa using hf
  rw [List.all_eq_true]
  intro frag hf
  obtain ⟨q, hq, rfl⟩ := List.mem_map.mp (hmem frag hf)
  rw [List.any_eq_true]
  exact ⟨q, by rw [hsplit]; exact List.mem_cons_of_mem p hq, by simp⟩

/-- Method `DynamicSizeDynamicStepSplitter._split_text_with_regex(text,
regex_separator)` (literal separators): unlike the module-level function it
has no empty-separator guard, so the empty pattern follows Python's
split-at-every-position behaviour via `reSplitParts`. -/
def dynSplitTextWithRegexM (text sep : List Char) (keepSeparator : Bool) : List (List Char) :=
  let splits := if keepSeparator then splitKeepM sep text else reSplitParts sep text
  splits.filter (fun s => decide (s ≠ []))

/-- One pass of `DynamicSizeDynamicStepSplitter._split_text`'s separator
loop: every working fragment that matches the current separator is replaced
by its splits; a fragment with no match contributes nothing to the pass's
output (the source's `else` branch only warns about non-string chunks and
appends nothing). -/
def dynPass (keepSeparator : Bool) (sep : List Char) (chunks : List (List Char)) :
    List (List Char) :=
  (chunks.map (fun chunk =>
    if reSearch sep chunk then dynSplitTextWithRegexM chunk sep keepSeparator else [])).flatten

/-- The full separator loop: each pass's output replaces the working list. -/
def dynPasses (keepSeparator : Bool) : List (List Char) → List (List Char) → List (List Char)
  | [], chunks => chunks
  | sep :: rest, chunks => dynPasses keepSeparator rest (dynPass keepSeparator sep chunks)

/-- Inner `while start_index < len(final_chunks)` loop of the window
assembly, carrying the running `total_length` and `temp_chunk`
accumulators: emit the buffer once its length reaches `window_size`, give
up (`none`) if the fragment list is exhausted first. -/
def accumAux (windowSize : Nat) (frags : List (List Char)) (start total : Nat)
    (temp : List Char) : Option (List Char) :=
  if h : start < frags.length then
    let f := frags.get ⟨start, h⟩
    if windowSize ≤ total + f.length then some (temp ++ f)
    else accumAux windowSize frags (start + 1) (total + f.length) (temp ++ f)
  else none
termination_by frags.length - start
decreasing_by omega

/-- Outer `for index, chunk in enumerate(final_chunks)` loop: one optional
chunk per fragment start index, in index order. -/
def dynWindow (windowSize : Nat) (frags : List (List Char)) : List (List Char) :=
  (List.range frags.length).filterMap (fun index => accumAux windowSize frags index 0 [])

/-- Configuration stored by `DynamicSizeDynamicStepSplitter.__init__`
(`length_function` is fixed to `len`; it is stored but the split never
calls anything else). -/
structure DynCfg where
  separators : List (List Char)
  keepSeparator : Bool
  windowSize : Nat
  stepSize : Nat

/-- Default separator list `["\n\n", "\n", ".", "?", "!", "。", "？", "！"]`
installed by the chroma-private splitters and by
`DynamicSizeFixedStepSplitter` when none is supplied. -/
def defaultSeparators : List (List Char) :=
  ["\n\n".toList, "\n".toList, ".".toList, "?".toList, "!".toList,
   "。".toList, "？".toList, "！".toList]

/-- Model of `DynamicSizeDynamicStepSplitter._split_text` (literal separators):
recursive separator passes starting from `[text]`, whole-text fallback when
everything was dropped, fragment-accumulation windowing, then the
`len(chunk) > 10` filter.  (The source additionally builds and sorts a
`chunk_sizes` list purely for printing; it does not affect the returned
value and is not modelled.) -/
def dynSplitText (cfg : DynCfg) (text : List Char) : List (List Char) :=
  let finalChunks := dynPasses cfg.keepSeparator cfg.separators [text]
  let finalChunks := if finalChunks = [] then [text] else finalChunks
  let splitChunks := dynWindow cfg.windowSize finalChunks
  splitChunks.filter (fun chunk => decide (10 < chunk.length))

theorem dynPass_append (keepSeparator : Bool) (sep : List Char)
    (l1 l2 : List (List Char)) :
    dynPass keepSeparator sep (l1 ++ l2) =
      dynPass keepSeparator sep l1 ++ dynPass keepSeparator sep l2 := by
  simp [dynPass]

/-- C2: a working-list fragment that contains no match of the current
separator is dropped by that pass of
`DynamicSizeDynamicStepSplitter._split_text` and hence is absent from the
output of the whole separator loop: the loop's result on a working list
containing the fragment equals its result with the fragment deleted. -/
theorem c2_unmatched_fragment_dropped (keepSeparator : Bool) (sep c : List Char)
    (rest pre post : List (List Char)) (h : reSearch sep c = false) :
    dynPasses keepSeparator (sep :: rest) (pre ++ c :: post) =
      dynPasses keepSeparator (sep :: rest) (pre ++ post) := by
  show dynPasses keepSeparator rest (dynPass keepSeparator sep (pre ++ c :: post)) =
    dynPasses keepSeparator rest (dynPass keepSeparator sep (pre ++ post))
  have : dynPass keepSeparator sep (pre ++ c :: post) =
      dynPass keepSeparator sep (pre ++ post) := by
    rw [dynPass_append, dynPass_append]
    have hc : dynPass keepSeparator sep (c :: post) = dynPass keepSeparator sep post := by
      simp [dynPass, h]
    rw [hc]
  rw [this]

/-- Witness for C2 at a concrete input: the fragment `"ab"` contains no
`"."`, so the separator loop yields the same output whether or not `"ab"`
is in the working list. -/
theorem c2_unmatched_fragment_dropped_witness :
    reSearch ".".toList "ab".toList = false ∧
      dynPasses true [".".toList] (["x.y".toList, "ab".toList]) =
        dynPasses true [".".toList] (["x.y".toList]) :=
  ⟨by decide, c2_unmatched_fragment_dropped true ".".toList "ab".toList []
    ["x.y".toList] [] (by decide)⟩

/-- C10: `step_size` is stored by `DynamicSizeDynamicStepSplitter.__init__`
but never read by `_split_text`: two configurations that agree on all other
parameters produce identical outputs for every text. -/
theorem c10_step_size_unused (separators : List (List Char)) (keepSeparator : Bool)
    (windowSize s1 s2 : Nat) (text : List Char) :
    dynSplitText ⟨separators, keepSeparator, windowSize, s1⟩ text =
      dynSplitText ⟨separators, keepSeparator, windowSize, s2⟩ text := rfl

/-- Specification-side description of the boundary-snapped windowing
(from the spec's words, for refinement against `dynWindow`): for a start
index `i`, the smallest run of consecutive fragments starting at `i` whose
total length reaches `windowSize`, concatenated; `none` when the fragment
list ends before the total is reached. -/
def specSmallestRun (windowSize : Nat) (frags : List (List Char)) (i : Nat) :
    Option (List Char) :=
  let tail := frags.drop i
  ((List.range tail.length).find?
      (fun m => decide (windowSize ≤ ((tail.take (m + 1)).map List.length).sum))).map
    (fun m => (tail.take (m + 1)).flatten)

/-- Budget-passing reformulation of the accumulation loop, structural in
the fragment list (proof vehicle linking `accumAux` to `specSmallestRun`). -/
def runAcc (budget : Nat) : List (List Char) → Option (List Char)
  | [] => none
  | f :: rest =>
    if budget ≤ f.length then some f
    else (runAcc (budget - f.length) rest).map (fun t => f ++ t)

theorem runAcc_eq_find :
    ∀ (l : List (List Char)) (w : Nat),
      runAcc w l =
        ((List.range l.length).find?
            (fun m => decide (w ≤ ((l.take (m + 1)).map List.length).sum))).map
          (fun m => (l.take (m + 1)).flatten) := by
  intro l
  induction l with
  | nil => intro w; rfl
  | cons f rest ih =>
    intro w
    rw [List.length_cons, List.range_succ_eq_map]
    by_cases hw : w ≤ f.length
    · rw [List.find?_cons_of_pos _ (by simpa using hw)]
      simp [runAcc, hw]
    · rw [List.find?_cons_of_neg _ (by simpa using hw)]
      rw [List.find?_map, Option.map_map]
      have hstep : runAcc w (f :: rest) = (runAcc (w - f.length) rest).map (fun t => f ++ t) := by
        rw [runAcc, if_neg hw]
      rw [hstep, ih (w - f.length), Option.map_map]
      have hpred : ((fun m => decide (w ≤ (((f :: rest).take (m + 1)).map List.length).sum))
            ∘ Nat.succ)
          = (fun m => decide (w - f.length ≤ ((rest.take (m + 1)).map List.length).sum)) := by
        funext m
        simp only [Function.comp_apply, Nat.succ_eq_add_one, List.take_succ_cons,
          List.map_cons, List.sum_cons]
        exact decide_eq_decide.mpr (by omega)
      rw [hpred]
      congr 1

theorem accumAux_eq_runAcc (w : Nat) (frags : List (List Char)) :
    ∀ (k start total : Nat) (temp : List Char), frags.length - start ≤ k →
      accumAux w frags start total temp =
        (runAcc (w - total) (frags.drop start)).map (fun t => temp ++ t) := by
  intro k
  induction k with
  | zero =>
    intro start total temp hk
    rw [accumAux, dif_neg (by omega)]
    rw [List.drop_eq_nil_of_le (by omega)]
    rfl
  | succ k ih =>
    intro start total temp hk
    by_cases h : start < frags.length
    · rw [accumAux, dif_pos h]
      have hdrop : frags.drop start = frags.get ⟨start, h⟩ :: frags.drop (start + 1) :=
        List.drop_eq_get_cons h
      rw [hdrop]
      by_cases hw : w ≤ total + (frags.get ⟨start, h⟩).length
      · rw [if_pos hw, runAcc, if_pos (by omega)]
        rfl
      · rw [if_neg hw, runAcc, if_neg (by omega)]
        rw [ih (start + 1) (total + (frags.get ⟨start, h⟩).length)
          (temp ++ frags.get ⟨start, h⟩) (by omega)]
        rw [Option.map_map]
        have hsub : w - (total + (frags.get ⟨start, h⟩).length) =
            w - total - (frags.get ⟨start, h⟩).length := by omega
        rw [hsub]
        congr 1
        funext t
        simp [List.append_assoc]
    · rw [accumAux, dif_neg h]
      rw [List.drop_eq_nil_of_le (by omega)]
      rfl

/-- C5: boundary-snapped (dynamic-size) assembly emits, for each fragment
start index `i`, at most one chunk: the concatenation of the smallest run
of consecutive fragments starting at `i` whose total length reaches
`windowSize`, and nothing when the list ends before the total is reached —
`dynWindow` refines the spec-side `specSmallestRun` description. -/
theorem c5_window_smallest_run (windowSize : Nat) (frags : List (List Char)) :
    dynWindow windowSize frags =
      (List.range frags.length).filterMap (specSmallestRun windowSize frags) := by
  unfold dynWindow
  congr 1
  funext i
  rw [accumAux_eq_runAcc windowSize frags (frags.length - i) i 0 [] le_rfl]
  rw [Nat.sub_zero, runAcc_eq_find]
  unfold specSmallestRun
  rw [Option.map_map]
  congr 1

/-- Python `range(start, stop, step)` for nonnegative arguments and
positive `step`; Python raises `ValueError` on `step = 0` (modelled by the
`Except` wrappers of the callers), here the value is `[]`. -/
def pyRange (start stop step : Nat) : List Nat :=
  if step = 0 then []
  else (List.range ((stop - start + step - 1) / step)).map (fun i => start + i * step)

/-- Python slice `text[start:stop]` for nonnegative clamped indices. -/
def pySlice (text : List Char) (start stop : Nat) : List Char :=
  (text.take stop).drop start

/-- The chunk-emission loop shared verbatim by both
`FiexedSizeFixedStepSplitter._split_text` variants:
`for start in range(0, len(text), step_window): final_chunks.append(text[start : start+chunk_size])`. -/
def fixedStepChunks (chunkSize stepWindow : Nat) (text : List Char) : List (List Char) :=
  (pyRange 0 text.length stepWindow).map (fun start => pySlice text start (start + chunkSize))

/-- The `for separator in separators: ... break` search loop shared by the
fixed-step splitters: the first separator found in the text selects the
split list; no match at all leaves the list empty. -/
def findFirstMatchingSplits (keepSeparator : Bool) (separators : List (List Char))
    (text : List Char) : List (List Char) :=
  match separators with
  | [] => []
  | sep :: rest =>
    if reSearch sep text then splitTextWithRegex text sep keepSeparator
    else findFirstMatchingSplits keepSeparator rest text

/-- Configuration of the fixed-step splitters (`_chunk_size` comes from the
langchain `TextSplitter` base in the chroma-private variant and from
`chunk_size=` in bench.py; `step_window` defaults to 50). -/
structure FixedCfg where
  separators : List (List Char)
  keepSeparator : Bool
  chunkSize : Nat
  stepWindow : Nat

/-- Model of `FiexedSizeFixedStepSplitter._split_text` of rag-chroma-private: the
separator search result is computed but unused by the emission loop (dead
in the source as well); chunks come from fixed offsets and are then
filtered by `len(chunk) > 10`. -/
def chromaFixedSplitText (cfg : FixedCfg) (text : List Char) : List (List Char) :=
  let untriedSplits := findFirstMatchingSplits cfg.keepSeparator cfg.separators text
  let _splits := if untriedSplits = [] then [text] else untriedSplits
  (fixedStepChunks cfg.chunkSize cfg.stepWindow text).filter
    (fun chunk => decide (10 < chunk.length))

/-- Failure kinds observable in this model.  `valueError` is Python's
`ValueError` raised by `range(..., 0)`; `invalidConfiguration` is the
`InvalidConfigurationError` named by the specification, which no code path
of the repository ever raises. -/
inductive PyErr where
  | valueError
  | invalidConfiguration
deriving DecidableEq

/-- Model of `FiexedSizeFixedStepSplitter._split_text` including Python's behaviour
at `step_window = 0`: `range(0, len(text), 0)` raises `ValueError` at the
start of the emission loop; otherwise the pure result is returned. -/
def chromaFixedSplitTextE (cfg : FixedCfg) (text : List Char) :
    Except PyErr (List (List Char)) :=
  if cfg.stepWindow = 0 then Except.error PyErr.valueError
  else Except.ok (chromaFixedSplitText cfg text)

/-- Default separator list `["\n\n", "\n", " ", "", ".", "。", "!"]` of the
rag-ollama-multi-query `FiexedSizeFixedStepSplitter`. -/
def ollamaFixedDefaultSeparators : List (List Char) :=
  ["\n\n".toList, "\n".toList, " ".toList, "".toList, ".".toList, "。".toList, "!".toList]

/-- Model of `FiexedSizeFixedStepSplitter._split_text` of rag-ollama-multi-query:
identical to the chroma-private variant except that its local
`TextSplitter` base hard-codes `_chunk_size = 100` and — unlike every other
variant — it returns `final_chunks` without the `len(chunk) > 10` filter. -/
def ollamaFixedSplitText (separators : List (List Char)) (keepSeparator : Bool)
    (stepWindow : Nat) (text : List Char) : List (List Char) :=
  let untriedSplits := findFirstMatchingSplits keepSeparator separators text
  let _splits := if untriedSplits = [] then [text] else untriedSplits
  fixedStepChunks 100 stepWindow text

/-- Python `text.find(sub, start)`: the least index `i >= start` at which
`sub` occurs in `text` (`i` may equal `len(text)` for the empty `sub`);
`none` models Python's `-1`. -/
def strFind (text sub : List Char) (start : Nat) : Option Nat :=
  (List.range (text.length + 1)).find?
    (fun i => decide (start ≤ i) && sub.isPrefixOf (text.drop i))

/-- The `for split in splits: ... break` end-adjustment of
`DynamicSizeFixedStepSplitter._split_text`: the first split (in list
order) whose first occurrence at or after `start` lies at or beyond the
tentative end moves the end to just past that occurrence. -/
def adjustEnd (text : List Char) (splits : List (List Char)) (start e : Nat) : Nat :=
  match splits with
  | [] => e
  | s :: rest =>
    match strFind text s start with
    | some i => if e ≤ i then i + s.length else adjustEnd text rest start e
    | none => adjustEnd text rest start e

/-- The `while start < len(text)` loop of
`DynamicSizeFixedStepSplitter._split_text`.  The Python loop does not
terminate when `step_window = 0` and the text is nonempty; the model only
iterates for positive steps (the guard includes `0 < step`). -/
def dfsLoop (chunkSize step : Nat) (text : List Char) (splits : List (List Char))
    (start : Nat) : List (List Char) :=
  if h : start < text.length ∧ 0 < step then
    pySlice text start (adjustEnd text splits start (start + chunkSize)) ::
      dfsLoop chunkSize step text splits (start + step)
  else []
termination_by text.length - start
decreasing_by omega

/-- Model of `DynamicSizeFixedStepSplitter._split_text` of rag-ollama-multi-query:
separator search, whole-text fallback, the boundary-adjusted fixed-step
loop, then the `len(chunk) > 10` filter. -/
def dfsSplitText (cfg : FixedCfg) (text : List Char) : List (List Char) :=
  let found := findFirstMatchingSplits cfg.keepSeparator cfg.separators text
  let splits := if found = [] then [text] else found
  (dfsLoop cfg.chunkSize cfg.stepWindow text splits 0).filter
    (fun chunk => decide (10 < chunk.length))

/-- C3 counterexample: the rag-ollama-multi-query
`FiexedSizeFixedStepSplitter` (default configuration: step window 50, the
hard-coded chunk size 100) returns the 5-character chunk "abcde" for the
input "abcde" — a chunk whose length is ≤ 10 reaches the caller, so not
every splitter variant filters short chunks. -/
theorem c3_cex_ollama_fixed_returns_short_chunk :
    (ollamaFixedSplitText ollamaFixedDefaultSeparators true 50 "abcde".toList).any
      (fun chunk => decide (chunk.length ≤ 10)) = true := by decide

/-- C3 (amended): the minimum-length guarantee holds for the three variants
that do filter — `DynamicSizeDynamicStepSplitter`, the chroma-private
`FiexedSizeFixedStepSplitter` and `DynamicSizeFixedStepSplitter` all
return only chunks of length > 10; the rag-ollama-multi-query
`FiexedSizeFixedStepSplitter` returns its chunks unfiltered. -/
theorem c3_amended_three_variants_filter (dcfg : DynCfg) (fcfg gcfg : FixedCfg)
    (t1 t2 t3 : List Char) :
    (dynSplitText dcfg t1).all (fun chunk => decide (10 < chunk.length)) = true ∧
      (chromaFixedSplitText fcfg t2).all (fun chunk => decide (10 < chunk.length)) = true ∧
      (dfsSplitText gcfg t3).all (fun chunk => decide (10 < chunk.length)) = true := by
  refine ⟨?_, ?_, ?_⟩ <;>
    · apply List.all_eq_true.mpr
      intro chunk hc
      exact (List.mem_filter.mp hc).2

/-- C4 counterexample: with positive targetSize 4 and step 1 and the
6-character text "abcdef" (not shorter than the target), the fixed-step
emission loop produces the non-final chunk "def" of length 3 ≠ 4. -/
theorem c4_cex_short_nonfinal_chunk :
    0 < 4 ∧ 0 < 1 ∧ 4 ≤ "abcdef".toList.length ∧
      (fixedStepChunks 4 1 "abcdef".toList).dropLast.all
        (fun chunk => chunk.length == 4) = false := by decide

theorem dropLast_range (n : Nat) : (List.range n).dropLast = List.range (n - 1) := by
  cases n with
  | zero => rfl
  | succ m => rw [List.range_succ, List.dropLast_concat, Nat.succ_sub_one]

/-- C4 (amended): in fixed-step mode the original bound holds whenever the
stride is at least the target size (`step = targetSize + extra`): every
emitted chunk except possibly the last has length exactly `targetSize`.
With `step < targetSize` a non-final chunk may be shorter even when the
text is longer than `targetSize` (see the counterexample). -/
theorem c4_amended_exact_size_when_step_ge_target (cs extra : Nat) (text : List Char) :
    ((fixedStepChunks (cs + 1) (cs + 1 + extra) text).dropLast).all
      (fun chunk => chunk.length == cs + 1) = true := by
  have hstep0 : cs + 1 + extra ≠ 0 := by omega
  rw [fixedStepChunks, pyRange, if_neg hstep0, List.map_map, ← List.map_dropLast,
    dropLast_range, List.all_eq_true]
  intro chunk hc
  obtain ⟨i, hi, rfl⟩ := List.mem_map.mp hc
  have hin : i < (text.length - 0 + (cs + 1 + extra) - 1) / (cs + 1 + extra) - 1 :=
    List.mem_range.mp hi
  have hmul : ((text.length - 0 + (cs + 1 + extra) - 1) / (cs + 1 + extra)) * (cs + 1 + extra) ≤
      text.length - 0 + (cs + 1 + extra) - 1 := Nat.div_mul_le_self _ _
  have hi2 : i + 2 ≤ (text.length - 0 + (cs + 1 + extra) - 1) / (cs + 1 + extra) := by omega
  have hb : (i + 2) * (cs + 1 + extra) ≤
      ((text.length - 0 + (cs + 1 + extra) - 1) / (cs + 1 + extra)) * (cs + 1 + extra) :=
    Nat.mul_le_mul_right _ hi2
  have hsucc2 : (i + 2) * (cs + 1 + extra) = i * (cs + 1 + extra) + (cs + 1 + extra)
      + (cs + 1 + extra) := by ring
  have hbound : i * (cs + 1 + extra) + (cs + 1) ≤ text.length := by omega
  simp only [Function.comp_apply, Nat.zero_add, pySlice, List.length_drop,
    List.length_take]
  have : min (i * (cs + 1 + extra) + (cs + 1)) text.length =
      i * (cs + 1 + extra) + (cs + 1) := Nat.min_eq_left hbound
  rw [this]
  simp

/-- C8 counterexample: with targetSize 0 (a non-positive configuration) the
chroma-private fixed-step splitter does not fail at all — no
`InvalidConfigurationError`, no eager validation — it runs to completion
and returns an (empty, filtered) result. -/
theorem c8_cex_no_validation :
    chromaFixedSplitTextE ⟨defaultSeparators, true, 0, 50⟩ "abc".toList =
      Except.ok [] := rfl

/-- C8 (amended): there is no eager configuration validation.  A zero step
fails only when the emission loop reaches `range`, with Python's
`ValueError` rather than `InvalidConfigurationError`; a zero target size
with a positive step is accepted silently and yields an empty output. -/
theorem c8_amended_no_eager_validation (seps1 seps2 : List (List Char))
    (keep1 keep2 : Bool) (cs s : Nat) (t1 t2 : List Char) :
    chromaFixedSplitTextE ⟨seps1, keep1, cs, 0⟩ t1 = Except.error PyErr.valueError ∧
      chromaFixedSplitTextE ⟨seps2, keep2, 0, s + 1⟩ t2 = Except.ok [] := by
  constructor
  · rfl
  · rw [chromaFixedSplitTextE, if_neg (by simp : ¬ (⟨seps2, keep2, 0, s + 1⟩ : FixedCfg).stepWindow = 0)]
    congr 1
    simp only [chromaFixedSplitText]
    apply List.filter_eq_nil_iff.mpr
    intro chunk hc
    simp only [fixedStepChunks] at hc
    obtain ⟨start, hs, rfl⟩ := List.mem_map.mp hc
    simp only [pySlice, List.length_drop, List.length_take, decide_eq_true_eq]
    omega

theorem dynPass_nil_text (keepSeparator : Bool) (sep : List Char) :
    dynPass keepSeparator sep [[]] = [] := by
  cases sep with
  | nil => cases keepSeparator <;> rfl
  | cons c s => rfl

theorem dynPasses_nil_list (keepSeparator : Bool) :
    ∀ seps : List (List Char), dynPasses keepSeparator seps [] = [] := by
  intro seps
  induction seps with
  | nil => rfl
  | cons sep rest ih =>
    show dynPasses keepSeparator rest (dynPass keepSeparator sep []) = []
    rw [show dynPass keepSeparator sep [] = [] from rfl]
    exact ih

theorem accumAux_single_nil (w : Nat) :
    accumAux w [[]] 0 0 [] = if w = 0 then some [] else none := by
  rw [accumAux_eq_runAcc w [[]] 1 0 0 [] (by simp)]
  cases w with
  | zero => rfl
  | succ n => rfl

theorem dynWindow_filter_nil_frag (w : Nat) :
    (dynWindow w [[]]).filter (fun chunk => decide (10 < chunk.length)) = [] := by
  have hacc := accumAux_single_nil w
  rw [dynWindow]
  by_cases hw : w = 0
  · rw [if_pos hw] at hacc
    simp [List.range_succ, hacc]
  · rw [if_neg hw] at hacc
    simp [List.range_succ, hacc]

theorem dynSplitText_nil (cfg : DynCfg) : dynSplitText cfg [] = [] := by
  obtain ⟨seps, keep, w, ss⟩ := cfg
  simp only [dynSplitText]
  cases seps with
  | nil =>
    rw [show dynPasses keep [] [[]] = [[]] from rfl]
    rw [if_neg (by simp)]
    exact dynWindow_filter_nil_frag w
  | cons sep rest =>
    rw [show dynPasses keep (sep :: rest) [([] : List Char)] =
      dynPasses keep rest (dynPass keep sep [[]]) from rfl]
    rw [dynPass_nil_text, dynPasses_nil_list]
    rw [if_pos rfl]
    exact dynWindow_filter_nil_frag w

theorem chromaFixedE_nil (seps : List (List Char)) (keep : Bool) (cs s : Nat) :
    chromaFixedSplitTextE ⟨seps, keep, cs, s + 1⟩ [] = Except.ok [] := by
  rw [chromaFixedSplitTextE, if_neg (by simp : ¬ (⟨seps, keep, cs, s + 1⟩ : FixedCfg).stepWindow = 0)]
  congr 1
  simp only [chromaFixedSplitText, fixedStepChunks, pyRange, List.length_nil]
  rw [if_neg (by omega : ¬ s + 1 = 0)]
  rw [show (0 - 0 + (s + 1) - 1) / (s + 1) = 0 from Nat.div_eq_of_lt (by omega)]
  rfl

theorem dfsSplitText_nil (cfg : FixedCfg) : dfsSplitText cfg [] = [] := by
  simp only [dfsSplitText]
  rw [dfsLoop]
  simp

theorem ollamaFixed_nil (seps : List (List Char)) (keep : Bool) (s : Nat) :
    ollamaFixedSplitText seps keep (s + 1) [] = [] := by
  simp only [ollamaFixedSplitText, fixedStepChunks, pyRange, List.length_nil]
  rw [if_neg (by omega : ¬ s + 1 = 0)]
  rw [show (0 - 0 + (s + 1) - 1) / (s + 1) = 0 from Nat.div_eq_of_lt (by omega)]
  rfl

/-- C9: for the empty input text, every splitter variant returns the empty
chunk sequence and raises no error (positive steps, the only configurations
under which Python's `range`-based loops are error-free, are encoded as
`s + 1`). -/
theorem c9_empty_text_all_variants (dcfg : DynCfg) (seps1 seps2 seps3 : List (List Char))
    (keep1 keep2 keep3 : Bool) (cs1 cs2 s1 s2 s3 : Nat) :
    dynSplitText dcfg [] = [] ∧
      chromaFixedSplitTextE ⟨seps1, keep1, cs1, s1 + 1⟩ [] = Except.ok [] ∧
      dfsSplitText ⟨seps2, keep2, cs2, s2⟩ [] = [] ∧
      ollamaFixedSplitText seps3 keep3 (s3 + 1) [] = [] :=
  ⟨dynSplitText_nil dcfg, chromaFixedE_nil seps1 keep1 cs1 s1,
    dfsSplitText_nil ⟨seps2, keep2, cs2, s2⟩, ollamaFixed_nil seps3 keep3 s3⟩

/-- The language tags handled by
`DynamicSizeDynamicStepSplitter.get_separators_for_language` (the langchain
`Language` enum has further members, for which the source raises
`ValueError`; those are outside this model). -/
inductive PyLanguage where
  | cpp | go | java | kotlin | js | ts | php | proto | python | rst | ruby
  | rust | scala | swift | markdown | latex | html | csharp | sol | cobol

/-- Table `DynamicSizeDynamicStepSplitter.get_separators_for_language`: the
static per-language separator profiles, transcribed list by list from the
source (literal `{` and `}` written as their character escapes). -/
def getSeparatorsForLanguage : PyLanguage → List (List Char)
  | PyLanguage.cpp =>
    ["\nclass ".toList, "\nvoid ".toList, "\nint ".toList, "\nfloat ".toList,
     "\ndouble ".toList, "\nif ".toList, "\nfor ".toList, "\nwhile ".toList,
     "\nswitch ".toList, "\ncase ".toList, "\n\n".toList, "\n".toList, " ".toList, "".toList]
  | PyLanguage.go =>
    ["\nfunc ".toList, "\nvar ".toList, "\nconst ".toList, "\ntype ".toList,
     "\nif ".toList, "\nfor ".toList, "\nswitch ".toList, "\ncase ".toList,
     "\n\n".toList, "\n".toList, " ".toList, "".toList]
  | PyLanguage.java =>
    ["\nclass ".toList, "\npublic ".toList, "\nprotected ".toList, "\nprivate ".toList,
     "\nstatic ".toList, "\nif ".toList, "\nfor ".toList, "\nwhile ".toList,
     "\nswitch ".toList, "\ncase ".toList, "\n\n".toList, "\n".toList, " ".toList, "".toList]
  | PyLanguage.kotlin =>
    ["\nclass ".toList, "\npublic ".toList, "\nprotected ".toList, "\nprivate ".toList,
     "\ninternal ".toList, "\ncompanion ".toList, "\nfun ".toList, "\nval ".toList,
     "\nvar ".toList, "\nif ".toList, "\nfor ".toList, "\nwhile ".toList,
     "\nwhen ".toList, "\ncase ".toList, "\nelse ".toList, "\n\n".toList, "\n".toList,
     " ".toList, "".toList]
  | PyLanguage.js =>
    ["\nfunction ".toList, "\nconst ".toList, "\nlet ".toList, "\nvar ".toList,
     "\nclass ".toList, "\nif ".toList, "\nfor ".toList, "\nwhile ".toList,
     "\nswitch ".toList, "\ncase ".toList, "\ndefault ".toList, "\n\n".toList,
     "\n".toList, " ".toList, "".toList]
  | PyLanguage.ts =>
    ["\nenum ".toList, "\ninterface ".toList, "\nnamespace ".toList, "\ntype ".toList,
     "\nclass ".toList, "\nfunction ".toList, "\nconst ".toList, "\nlet ".toList,
     "\nvar ".toList, "\nif ".toList, "\nfor ".toList, "\nwhile ".toList,
     "\nswitch ".toList, "\ncase ".toList, "\ndefault ".toList, "\n\n".toList,
     "\n".toList, " ".toList, "".toList]
  | PyLanguage.php =>
    ["\nfunction ".toList, "\nclass ".toList, "\nif ".toList, "\nforeach ".toList,
     "\nwhile ".toList, "\ndo ".toList, "\nswitch ".toList, "\ncase ".toList,
     "\n\n".toList, "\n".toList, " ".toList, "".toList]
  | PyLanguage.proto =>
    ["\nmessage ".toList, "\nservice ".toList, "\nenum ".toList, "\noption ".toList,
     "\nimport ".toList, "\nsyntax ".toList, "\n\n".toList, "\n".toList,
     " ".toList, "".toList]
  | PyLanguage.python =>
    ["\nclass ".toList, "\ndef ".toList, "\n\tdef ".toList, "\n\n".toList,
     "\n".toList, " ".toList, "".toList]
  | PyLanguage.rst =>
    ["\n=+\n".toList, "\n-+\n".toList, "\n\\*+\n".toList, "\n\n.. *\n\n".toList,
     "\n\n".toList, "\n".toList, " ".toList, "".toList]
  | PyLanguage.ruby =>
    ["\ndef ".toList, "\nclass ".toList, "\nif ".toList, "\nunless ".toList,
     "\nwhile ".toList, "\nfor ".toList, "\ndo ".toList, "\nbegin ".toList,
     "\nrescue ".toList, "\n\n".toList, "\n".toList, " ".toList, "".toList]
  | PyLanguage.rust =>
    ["\nfn ".toList, "\nconst ".toList, "\nlet ".toList, "\nif ".toList,
     "\nwhile ".toList, "\nfor ".toList, "\nloop ".toList, "\nmatch ".toList,
     "\nconst ".toList, "\n\n".toList, "\n".toList, " ".toList, "".toList]
  | PyLanguage.scala =>
    ["\nclass ".toList, "\nobject ".toList, "\ndef ".toList, "\nval ".toList,
     "\nvar ".toList, "\nif ".toList, "\nfor ".toList, "\nwhile ".toList,
     "\nmatch ".toList, "\ncase ".toList, "\n\n".toList, "\n".toList,
     " ".toList, "".toList]
  | PyLanguage.swift =>
    ["\nfunc ".toList, "\nclass ".toList, "\nstruct ".toList, "\nenum ".toList,
     "\nif ".toList, "\nfor ".toList, "\nwhile ".toList, "\ndo ".toList,
     "\nswitch ".toList, "\ncase ".toList, "\n\n".toList, "\n".toList,
     " ".toList, "".toList]
  | PyLanguage.markdown =>
    ["\n#\x7b1,6\x7d ".toList, "```\n".toList, "\n\\*\\*\\*+\n".toList,
     "\n---+\n".toList, "\n___+\n".toList, "\n\n".toList, "\n".toList,
     " ".toList, "".toList]
  | PyLanguage.latex =>
    ["\n\\\\chapter\x7b".toList, "\n\\\\section\x7b".toList,
     "\n\\\\subsection\x7b".toList, "\n\\\\subsubsection\x7b".toList,
     "\n\\\\begin\x7benumerate\x7d".toList, "\n\\\\begin\x7bitemize\x7d".toList,
     "\n\\\\begin\x7bdescription\x7d".toList, "\n\\\\begin\x7blist\x7d".toList,
     "\n\\\\begin\x7bquote\x7d".toList, "\n\\\\begin\x7bquotation\x7d".toList,
     "\n\\\\begin\x7bverse\x7d".toList, "\n\\\\begin\x7bverbatim\x7d".toList,
     "\n\\\x08egin\x7balign\x7d".toList, "$$".toList, "$".toList,
     " ".toList, "".toList]
  | PyLanguage.html =>
    ["<body".toList, "<div".toList, "<p".toList, "<br".toList, "<li".toList,
     "<h1".toList, "<h2".toList, "<h3".toList, "<h4".toList, "<h5".toList,
     "<h6".toList, "<span".toList, "<table".toList, "<tr".toList, "<td".toList,
     "<th".toList, "<ul".toList, "<ol".toList, "<header".toList, "<footer".toList,
     "<nav".toList, "<head".toList, "<style".toList, "<script".toList,
     "<meta".toList, "<title".toList, "".toList]
  | PyLanguage.csharp =>
    ["\ninterface ".toList, "\nenum ".toList, "\nimplements ".toList,
     "\ndelegate ".toList, "\nevent ".toList, "\nclass ".toList,
     "\nabstract ".toList, "\npublic ".toList, "\nprotected ".toList,
     "\nprivate ".toList, "\nstatic ".toList, "\nreturn ".toList, "\nif ".toList,
     "\ncontinue ".toList, "\nfor ".toList, "\nforeach ".toList, "\nwhile ".toList,
     "\nswitch ".toList, "\nbreak ".toList, "\ncase ".toList, "\nelse ".toList,
     "\ntry ".toList, "\nthrow ".toList, "\nfinally ".toList, "\ncatch ".toList,
     "\n\n".toList, "\n".toList, " ".toList, "".toList]
  | PyLanguage.sol =>
    ["\npragma ".toList, "\nusing ".toList, "\ncontract ".toList,
     "\ninterface ".toList, "\nlibrary ".toList, "\nconstructor ".toList,
     "\ntype ".toList, "\nfunction ".toList, "\nevent ".toList,
     "\nmodifier ".toList, "\nerror ".toList, "\nstruct ".toList,
     "\nenum ".toList, "\nif ".toList, "\nfor ".toList, "\nwhile ".toList,
     "\ndo while ".toList, "\nassembly ".toList, "\n\n".toList, "\n".toList,
     " ".toList, "".toList]
  | PyLanguage.cobol =>
    ["\nIDENTIFICATION DIVISION.".toList, "\nENVIRONMENT DIVISION.".toList,
     "\nDATA DIVISION.".toList, "\nPROCEDURE DIVISION.".toList,
     "\nWORKING-STORAGE SECTION.".toList, "\nLINKAGE SECTION.".toList,
     "\nFILE SECTION.".toList, "\nINPUT-OUTPUT SECTION.".toList,
     "\nOPEN ".toList, "\nCLOSE ".toList, "\nREAD ".toList, "\nWRITE ".toList,
     "\nIF ".toList, "\nELSE ".toList, "\nMOVE ".toList, "\nPERFORM ".toList,
     "\nUNTIL ".toList, "\nVARYING ".toList, "\nACCEPT ".toList,
     "\nDISPLAY ".toList, "\nSTOP RUN.".toList, "\n".toList, " ".toList, "".toList]

/-- C7 counterexample: the default separator list installed when none is
supplied (`["\n\n", "\n", ".", "?", "!", "。", "？", "！"]`) does not
terminate with the empty-string separator, so not every profile used by the
splitters guarantees character-level fallback. -/
theorem c7_cex_default_list_lacks_empty_terminator :
    defaultSeparators.getLast? ≠ some ([] : List Char) := by decide

/-- C7 (amended): every built-in per-language profile terminates with the
empty-string separator, but neither default separator list does — the
chroma-private/DynamicSizeFixedStep default ends with "！" and the
rag-ollama fixed-step default ends with "!" (its empty string sits in the
middle of the list). -/
theorem c7_amended_only_language_profiles_end_empty :
    (∀ lang : PyLanguage, (getSeparatorsForLanguage lang).getLast? = some []) ∧
      defaultSeparators.getLast? = some "！".toList ∧
      ollamaFixedDefaultSeparators.getLast? = some "!".toList := by
  refine ⟨?_, rfl, rfl⟩
  intro lang
  cases lang <;> rfl
